import Mathlib

/-!
Verification of the libredis ketama consistent-hashing module
(`src/ketama.c`) against its natural-language specification.

The C source is shallowly embedded below.  Machine integers are modelled
as `Nat`/`Int` (overflow is applied explicitly where the C type wraps),
the IEEE-754 single/double arithmetic used for the per-server hash-round
count is modelled exactly as round-to-nearest-even on `Rat`, and the
external 128-bit digest primitive (MD5, supplied by `md5.h`, outside this
repository's core per the spec) is a function parameter producing a list
of bytes.
-/

namespace Libredis

/-! ### Exact model of the IEEE-754 arithmetic used by the source

`Ketama_create_continuum` (ketama.c lines 180-181) computes

    float pct = (float)sinfo->memory / (float)ketama->memory;
    unsigned int ks = floorf( pct * 40.0 * (float)ketama->numservers );

All quantities involved stay inside the normal range of binary32/binary64
(weights are at most 2^64, counts at most 2^32), so rounding to `prec`
significant bits with round-to-nearest, ties-to-even is an exact model of
the hardware arithmetic; no overflow, underflow or subnormal case can be
reached by these expressions.  Every value is an exact dyadic rational
`m * 2^e`, kept as an explicit mantissa/exponent pair so that concrete
instances evaluate by `decide`.  -/

/-- Fueled floor-log2 on `Nat` (structural recursion; the fuel bounds the
number of halvings). -/
def log2fuel : Nat → Nat → Nat
  | 0, _ => 0
  | f + 1, n => if 2 ≤ n then log2fuel f (n / 2) + 1 else 0

/-- Floor of the base-two logarithm of a positive natural number. -/
def natLog2 (n : Nat) : Nat := log2fuel n n

/-- An exact binary floating-point value `m * 2^e` (nonnegative mantissa,
unbounded exponent: the source's expressions never leave the normal
range, see above). -/
structure FP where
  m : Nat
  e : Int
  deriving DecidableEq, Repr

/-- Round the value `(a / b) * 2^e` (with `b ≥ 1`) to `prec` significant
binary digits, round-to-nearest, ties-to-even: the IEEE-754 rounding
applied by every float/double operation and conversion in the source. -/
def roundDyadic (prec : Nat) (a b : Nat) (e : Int) : FP :=
  let e0 : Int := (natLog2 a : Int) - (natLog2 b : Int)
  let e2 : Int :=
    if 0 ≤ e0 then (if b * 2 ^ e0.toNat ≤ a then e0 else e0 - 1)
    else (if b ≤ a * 2 ^ (-e0).toNat then e0 else e0 - 1)
  let s : Int := e2 - (prec : Int) + 1
  let A : Nat := if 0 ≤ s then a else a * 2 ^ (-s).toNat
  let B : Nat := if 0 ≤ s then b * 2 ^ s.toNat else b
  let q := A / B
  let r := A % B
  let md : Nat :=
    if 2 * r < B then q else if B < 2 * r then q + 1 else if q % 2 = 0 then q else q + 1
  ⟨md, s + e⟩

/-- The per-server hash-round count of ketama.c lines 180-181, modelled
operation by operation: `(float)w / (float)W` is a correctly rounded
binary32 division; `pct` is then promoted to `double`, multiplied by the
double literal `40.0`, multiplied by `(double)(float)n`, converted back to
`float` (the parameter type of `floorf`), floored, and cast to
`unsigned int`.  A zero weight gives `pct = 0.0` exactly and hence zero
rounds.  When the total weight `W` is zero the C source divides 0.0f by
0.0f and casts the resulting NaN to an unsigned integer, which is
undefined behaviour; we model the commonly produced value 0. -/
def ks (w W n : Nat) : Nat :=
  if W = 0 then 0
  else if w = 0 then 0
  else
    let pw := roundDyadic 24 w 1 0
    let pW := roundDyadic 24 W 1 0
    let pct := roundDyadic 24 pw.m pW.m (pw.e - pW.e)
    let p1 := roundDyadic 53 (pct.m * 40) 1 pct.e
    let nf := roundDyadic 24 n 1 0
    let p2 := roundDyadic 53 (p1.m * nf.m) 1 (p1.e + nf.e)
    let pf := roundDyadic 24 p2.m 1 p2.e
    if 0 ≤ pf.e then pf.m * 2 ^ pf.e.toNat else pf.m / 2 ^ (-pf.e).toNat

/-! ### Data model (ketama.c lines 42-63) -/

/-- `mcs` (ketama.c lines 42-46): one point on the circle together with
the address of the server that owns it. -/
structure Mcs where
  point : Nat
  ip : String
  deriving DecidableEq, Repr

/-- Default `Mcs` used for (never exercised) out-of-bounds array reads. -/
def mcs0 : Mcs := ⟨0, ""⟩

/-- `struct _Ketama` (ketama.c lines 56-63).  `numpoints` is a C `int`,
`numservers` an `unsigned int`, `memory` an `unsigned long`; `continuum`
is `NULL` (`none`) until the continuum is created; the `servers` list
holds each server's formatted address and weight. -/
structure Ketama where
  numpoints : Int
  numservers : Nat
  memory : Nat
  continuum : Option (List Mcs)
  servers : List (String × Nat)
  deriving Repr

/-- The external 128-bit digest primitive (`ketama_md5_digest`, backed by
`md5.h which is outside this repository's core): a black-box function from
a string to its 16 digest bytes, per spec section 6. -/
def DigestFn := String → List Nat

/-! ### ServerSet bookkeeping (ketama.c lines 69-93) -/

/-- `Ketama_new` (ketama.c lines 69-78): all counters zero, no continuum,
empty server list. -/
def Ketama_new : Ketama :=
  { numpoints := 0, numservers := 0, memory := 0, continuum := none, servers := [] }

/-- `Ketama_add_server` (ketama.c lines 85-93): formats `"addr:port"`,
appends the record, bumps `numservers` (unsigned int) and adds the weight
into `memory` (unsigned long).  The `list.h` doubly linked list lives
outside this repository's core; modelled from the spec: the ServerSet is
an insertion-ordered collection, so the record is appended in insertion
order. -/
def Ketama_add_server (ketama : Ketama) (addr : String) (port : Int) (weight : Nat) :
    Ketama :=
  { ketama with
    servers := ketama.servers ++ [(addr ++ ":" ++ toString port, weight)]
    numservers := (ketama.numservers + 1) % 2 ^ 32
    memory := (ketama.memory + weight) % 2 ^ 64 }

/-! ### Hashing (ketama.c lines 106-125) -/

/-- The word assembly of ketama.c lines 201-204: the `h`-th unsigned
32-bit integer read from a digest, `(digest[3+h*4] << 24) |
(digest[2+h*4] << 16) | (digest[1+h*4] << 8) | digest[h*4]`. -/
def continuumPoint (digest : List Nat) (h : Nat) : Nat :=
  ((digest.getD (3 + h * 4) 0) <<< 24) |||
    ((digest.getD (2 + h * 4) 0) <<< 16) |||
    ((digest.getD (1 + h * 4) 0) <<< 8) |||
    digest.getD (h * 4) 0

/-- `ketama_hashi` (ketama.c lines 115-125): digest the string and
assemble `(digest[3] << 24) | (digest[2] << 16) | (digest[1] << 8) |
digest[0]`. -/
def ketama_hashi (d : DigestFn) (inString : String) : Nat :=
  let digest := d inString
  ((digest.getD 3 0) <<< 24) ||| ((digest.getD 2 0) <<< 16) |||
    ((digest.getD 1 0) <<< 8) ||| digest.getD 0 0

/-- Modelled from the spec (section 4.2 step 3, section 4.3): the
little-endian word-assembly rule, reading the `g`-th successive 4-byte
group of a digest as `byte[3]<<24 | byte[2]<<16 | byte[1]<<8 | byte[0]`. -/
def specWord32 (digest : List Nat) (g : Nat) : Nat :=
  ((digest.getD (4 * g + 3) 0) <<< 24) |||
    ((digest.getD (4 * g + 2) 0) <<< 16) |||
    ((digest.getD (4 * g + 1) 0) <<< 8) |||
    digest.getD (4 * g) 0

/-! ### Continuum construction (ketama.c lines 166-219) -/

/-- The points generated for one server by the loop body of ketama.c
lines 187-209: for `k = 0, …, ks-1` digest the string `"<addr>-<k>"` and
emit the 4 assembled words, each owned by this server's address. -/
def serverPoints (d : DigestFn) (W n : Nat) (sinfo : String × Nat) : List Mcs :=
  (List.range (ks sinfo.2 W n)).flatMap fun k =>
    let digest := d (sinfo.1 ++ "-" ++ toString k)
    (List.range 4).map fun h => { point := continuumPoint digest h, ip := sinfo.1 }

/-- `Ketama_create_continuum` (ketama.c lines 166-219).  The two `assert`
statements (lines 168 and 173) abort unless `numservers > 0` and the
continuum has not been created yet; an abort is modelled as `none`.
Otherwise the continuum holds each server's points in server-list order.
The `qsort` call at line 217 is commented out in the source, so no sort
is performed; and the locally counted number of written points (`cont`)
is never stored, so `numpoints` keeps its previous value. -/
def Ketama_create_continuum (d : DigestFn) (ketama : Ketama) : Option Ketama :=
  if ketama.numservers = 0 then none
  else if ketama.continuum.isSome then none
  else
    some { ketama with
      continuum :=
        some (ketama.servers.flatMap (serverPoints d ketama.memory ketama.numservers)) }

/-! ### Lookup (ketama.c lines 128-159) -/

/-- The `while (1)` binary search of ketama.c lines 138-158, with an
explicit iteration budget (`fuel`) standing in for the unbounded loop:
returning `none` means the budget was exhausted, and the theorems below
show a budget of `numpoints + 2` always suffices.  Returned is the
continuum index of the chosen point (`0` for both `return &(*mcsarr)[0]`
exits). -/
def getLoop (pts : List Mcs) (np : Int) (h : Nat) :
    Nat → Int → Int → Option Nat
  | 0, _, _ => none
  | fuel + 1, lowp, highp =>
    let midp : Int := (lowp + highp) / 2
    if midp = np then
      some 0
    else
      let m : Nat := midp.toNat
      let midval : Nat := (pts.getD m mcs0).point
      let midval1 : Nat := if m = 0 then 0 else (pts.getD (m - 1) mcs0).point
      if h ≤ midval ∧ midval1 < h then
        some m
      else
        let lowp' : Int := if midval < h then midp + 1 else lowp
        let highp' : Int := if midval < h then highp else midp - 1
        if lowp' > highp' then some 0
        else getLoop pts np h fuel lowp' highp'

/-- `Ketama_get_server` (ketama.c lines 128-159): hash the key, then run
the binary search over the continuum with `lowp = 0` and
`highp = numpoints`; the chosen `mcs` entry is returned. -/
def Ketama_get_server (d : DigestFn) (ketama : Ketama) (key : String) : Option Mcs :=
  let h := ketama_hashi d key
  let arr := ketama.continuum.getD []
  (getLoop arr ketama.numpoints h (ketama.numpoints.toNat + 2) 0 ketama.numpoints).map
    fun i => arr.getD i mcs0

/-- State-passing form of `Ketama_get_server`: the body of ketama.c lines
128-159 contains no store through the `ketama` pointer (every statement
only reads `numpoints` and the continuum), so the state component of the
result is the struct exactly as it entered the call. -/
def Ketama_get_server_run (d : DigestFn) (ketama : Ketama) (key : String) :
    Option Mcs × Ketama :=
  let h := ketama_hashi d key
  let highp : Int := ketama.numpoints
  let arr := ketama.continuum.getD []
  let r := (getLoop arr ketama.numpoints h (ketama.numpoints.toNat + 2) 0 highp).map
    fun i => arr.getD i mcs0
  (r, ketama)

/-! ### Derived vocabulary used by the theorems -/

/-- Position of the `j`-th ring point. -/
def ptv (pts : List Mcs) (j : Nat) : Nat := (pts.getD j mcs0).point

/-- The sortedness invariant of spec section 3 and 8: adjacent (hence all)
pairs of ring positions are in ascending order. -/
def sortedByPoint (pts : List Mcs) : Prop :=
  List.Pairwise (fun a b => a.point ≤ b.point) pts

instance (pts : List Mcs) : Decidable (sortedByPoint pts) := by
  unfold sortedByPoint; infer_instance

/-- Correctness predicate for the index chosen by the lookup: either it is
the leftmost point whose position is at least the key hash, or the hash
exceeds every position and the index wraps to 0. -/
def GoodIdx (pts : List Mcs) (h i : Nat) : Prop :=
  (i < pts.length ∧ h ≤ ptv pts i ∧ ∀ j, j < i → ptv pts j < h) ∨
    (i = 0 ∧ ∀ j, j < pts.length → ptv pts j < h)

/-- Run `Ketama_new`, the given `Ketama_add_server` calls in order, then
`Ketama_create_continuum`. -/
def applyAdds (l : List (String × Int × Nat)) : Ketama :=
  l.foldl (fun st e => Ketama_add_server st e.1 e.2.1 e.2.2) Ketama_new

/-- Full construction pipeline of the spec's control flow: populate, then
build the continuum once. -/
def buildPipeline (d : DigestFn) (l : List (String × Int × Nat)) : Option Ketama :=
  Ketama_create_continuum d (applyAdds l)

/-- A constant digest function available to concrete evaluations: every
string digests to the 16 bytes `[1, 0, 0, …, 0]`. -/
def dConst : DigestFn := fun _ => [1, 0, 0, 0, 0, 0, 0, 0, 0, 0, 0, 0, 0, 0, 0, 0]

/-- A concrete sorted two-point state used to instantiate the lookup
theorems: `numpoints` equals the continuum length. -/
def stEx : Ketama :=
  { numpoints := 2, numservers := 2, memory := 2,
    continuum := some [⟨10, "a:0"⟩, ⟨20, "b:0"⟩],
    servers := [("a:0", 1), ("b:0", 1)] }

/-! ### Helper lemmas -/

theorem ptv_def (pts : List Mcs) (j : Nat) : ptv pts j = (pts.getD j mcs0).point := rfl

/-- On a sorted continuum the position read at a smaller index is at most
the position read at a larger (in-bounds) index. -/
theorem ptv_mono (pts : List Mcs) (hs : sortedByPoint pts) :
    ∀ i j : Nat, i ≤ j → j < pts.length → ptv pts i ≤ ptv pts j := by
  intro i j hij hj
  rcases Nat.eq_or_lt_of_le hij with rfl | hlt
  · exact le_rfl
  · have hi : i < pts.length := Nat.lt_trans hlt hj
    have hr := (List.pairwise_iff_getElem.mp hs) i j hi hj hlt
    simpa [ptv, List.getD_eq_getElem?_getD, List.getElem?_eq_getElem, hi, hj] using hr

/-- One-step unfolding of `getLoop` at positive fuel, with the loop-body
abbreviations of the source spelled out. -/
theorem getLoop_succ (pts : List Mcs) (np : Int) (h : Nat) (f : Nat) (lowp highp : Int) :
    getLoop pts np h (f + 1) lowp highp =
      (if (lowp + highp) / 2 = np then some 0
       else if h ≤ (pts.getD ((lowp + highp) / 2).toNat mcs0).point ∧
              (if ((lowp + highp) / 2).toNat = 0 then 0
               else (pts.getD (((lowp + highp) / 2).toNat - 1) mcs0).point) < h then
         some ((lowp + highp) / 2).toNat
       else if (if (pts.getD ((lowp + highp) / 2).toNat mcs0).point < h
                then (lowp + highp) / 2 + 1 else lowp) >
              (if (pts.getD ((lowp + highp) / 2).toNat mcs0).point < h
               then highp else (lowp + highp) / 2 - 1) then some 0
       else getLoop pts np h f
         (if (pts.getD ((lowp + highp) / 2).toNat mcs0).point < h
          then (lowp + highp) / 2 + 1 else lowp)
         (if (pts.getD ((lowp + highp) / 2).toNat mcs0).point < h
          then highp else (lowp + highp) / 2 - 1)) := rfl

/-- Totality and index-validity of the binary-search loop: from any state
`0 ≤ lowp ≤ highp ≤ numpoints` with at least `highp - lowp + 1` fuel, the
loop returns an index, and the index is `0` or below `numpoints`.  No
sortedness is needed: every iteration either returns or strictly shrinks
`highp - lowp`. -/
theorem getLoop_total (pts : List Mcs) (np : Int) (h : Nat) :
    ∀ (fuel : Nat) (lowp highp : Int), 0 ≤ lowp → lowp ≤ highp → highp ≤ np →
      (highp - lowp).toNat + 1 ≤ fuel →
      ∃ i, getLoop pts np h fuel lowp highp = some i ∧ (i = 0 ∨ (i : Int) < np) := by
  intro fuel
  induction fuel with
  | zero => intro lowp highp h0 hlh hhn hf; omega
  | succ f ih =>
    intro lowp highp h0 hlh hhn hf
    have hm1 : lowp ≤ (lowp + highp) / 2 := by omega
    have hm2 : (lowp + highp) / 2 ≤ highp := by omega
    rw [getLoop_succ]
    by_cases hmid : (lowp + highp) / 2 = np
    · rw [if_pos hmid]; exact ⟨0, rfl, Or.inl rfl⟩
    rw [if_neg hmid]
    by_cases hmatch : h ≤ (pts.getD ((lowp + highp) / 2).toNat mcs0).point ∧
        (if ((lowp + highp) / 2).toNat = 0 then 0
         else (pts.getD (((lowp + highp) / 2).toNat - 1) mcs0).point) < h
    · rw [if_pos hmatch]
      exact ⟨((lowp + highp) / 2).toNat, rfl, Or.inr (by omega)⟩
    rw [if_neg hmatch]
    by_cases hlt : (pts.getD ((lowp + highp) / 2).toNat mcs0).point < h
    · simp only [if_pos hlt]
      by_cases hexit : (lowp + highp) / 2 + 1 > highp
      · rw [if_pos hexit]; exact ⟨0, rfl, Or.inl rfl⟩
      · rw [if_neg hexit]
        exact ih ((lowp + highp) / 2 + 1) highp (by omega) (by omega) hhn (by omega)
    · simp only [if_neg hlt]
      by_cases hexit : lowp > (lowp + highp) / 2 - 1
      · rw [if_pos hexit]; exact ⟨0, rfl, Or.inl rfl⟩
      · rw [if_neg hexit]
        exact ih lowp ((lowp + highp) / 2 - 1) h0 (by omega) (by omega) (by omega)

/-- Functional correctness of the binary-search loop on a sorted
continuum.  Loop invariants: every index left of `lowp` has a position
below the hash, and every index at or beyond `highp` has a position at or
above it.  The returned index is then the leftmost point with position
`≥ h`, or `0` when the hash exceeds every position. -/
theorem getLoop_sound (pts : List Mcs) (h : Nat) (hs : sortedByPoint pts) :
    ∀ (fuel : Nat) (lowp highp : Int), 0 ≤ lowp → lowp ≤ highp →
      highp ≤ (pts.length : Int) →
      (highp - lowp).toNat + 1 ≤ fuel →
      (∀ j : Nat, (j : Int) < lowp → j < pts.length → ptv pts j < h) →
      (∀ j : Nat, highp ≤ (j : Int) → j < pts.length → h ≤ ptv pts j) →
      ∃ i, getLoop pts (pts.length : Int) h fuel lowp highp = some i ∧ GoodIdx pts h i := by
  intro fuel
  induction fuel with
  | zero => intro lowp highp h0 hlh hhn hf hA hB; omega
  | succ f ih =>
    intro lowp highp h0 hlh hhn hf hA hB
    have hm1 : lowp ≤ (lowp + highp) / 2 := by omega
    have hm2 : (lowp + highp) / 2 ≤ highp := by omega
    rw [getLoop_succ]
    by_cases hmid : (lowp + highp) / 2 = (pts.length : Int)
    · rw [if_pos hmid]
      exact ⟨0, rfl, Or.inr ⟨rfl, fun j hj => hA j (by omega) hj⟩⟩
    rw [if_neg hmid]
    have hmlt : (lowp + highp) / 2 < (pts.length : Int) := by omega
    set m : Nat := ((lowp + highp) / 2).toNat with hm
    have hmlen : m < pts.length := by omega
    by_cases hmatch : h ≤ (pts.getD m mcs0).point ∧
        (if m = 0 then 0 else (pts.getD (m - 1) mcs0).point) < h
    · rw [if_pos hmatch]
      refine ⟨m, rfl, Or.inl ⟨hmlen, hmatch.1, ?_⟩⟩
      intro j hj
      rcases Nat.eq_zero_or_pos m with hm0 | hmpos
      · omega
      · have h1 : ptv pts j ≤ ptv pts (m - 1) :=
          ptv_mono pts hs j (m - 1) (by omega) (by omega)
        have h2 := hmatch.2
        rw [if_neg (by omega : ¬m = 0)] at h2
        have h3 : ptv pts (m - 1) = (pts.getD (m - 1) mcs0).point := rfl
        have h4 : ptv pts j = (pts.getD j mcs0).point := rfl
        omega
    rw [if_neg hmatch]
    by_cases hlt : (pts.getD m mcs0).point < h
    · simp only [if_pos hlt]
      by_cases hexit : (lowp + highp) / 2 + 1 > highp
      · exfalso
        have hBm : h ≤ ptv pts m := hB m (by omega) hmlen
        have h3 : ptv pts m = (pts.getD m mcs0).point := rfl
        omega
      · rw [if_neg hexit]
        refine ih ((lowp + highp) / 2 + 1) highp (by omega) (by omega) hhn (by omega) ?_ hB
        intro j hj hjlen
        have h1 : ptv pts j ≤ ptv pts m := ptv_mono pts hs j m (by omega) hmlen
        have h3 : ptv pts m = (pts.getD m mcs0).point := rfl
        have h4 : ptv pts j = (pts.getD j mcs0).point := rfl
        omega
    · simp only [if_neg hlt]
      have hge : h ≤ (pts.getD m mcs0).point := by omega
      have hmv1 : h ≤ (if m = 0 then 0 else (pts.getD (m - 1) mcs0).point) := by
        by_contra hc
        exact hmatch ⟨hge, by omega⟩
      by_cases hexit : lowp > (lowp + highp) / 2 - 1
      · rw [if_pos hexit]
        rcases Nat.eq_zero_or_pos m with hm0 | hmpos
        · rw [if_pos hm0] at hmv1
          refine ⟨0, rfl, Or.inl ⟨by omega, ?_, fun j hj => by omega⟩⟩
          have h4 : 0 ≤ ptv pts 0 := Nat.zero_le _
          omega
        · exfalso
          rw [if_neg (by omega : ¬m = 0)] at hmv1
          have hAm : ptv pts (m - 1) < h := hA (m - 1) (by omega) (by omega)
          have h3 : ptv pts (m - 1) = (pts.getD (m - 1) mcs0).point := rfl
          omega
      · rw [if_neg hexit]
        refine ih lowp ((lowp + highp) / 2 - 1) h0 (by omega) (by omega) (by omega) hA ?_
        intro j hjge hjlen
        rcases Nat.eq_zero_or_pos m with hm0 | hmpos
        · rw [if_pos hm0] at hmv1
          omega
        · rw [if_neg (by omega : ¬m = 0)] at hmv1
          have h1 : ptv pts (m - 1) ≤ ptv pts j := ptv_mono pts hs (m - 1) j (by omega) hjlen
          have h3 : ptv pts (m - 1) = (pts.getD (m - 1) mcs0).point := rfl
          omega

/-! ### Claim theorems -/

/-- C7: every ring position is assembled from the digest by the
little-endian word rule `byte[3]<<24 | byte[2]<<16 | byte[1]<<8 |
byte[0]` applied to the corresponding 4-byte group, and the lookup hash
of a key (`ketama_hashi`) is the first such 32-bit word of the key's
digest, extracted with exactly the same byte-order rule as construction
uses. -/
theorem C7_byte_order_consistent (d : DigestFn) (key : String) (digest : List Nat) (g : Nat) :
    ketama_hashi d key = specWord32 (d key) 0 ∧
      continuumPoint digest g = specWord32 digest g := by
  constructor
  · rfl
  · simp only [continuumPoint, specWord32, Nat.mul_comm, Nat.add_comm]

/-- C8: construction is a pure, deterministic function of the server list
and the digest function: two runs from equal inputs produce identical
results, in particular bit-identical RingPoint sequences. -/
theorem C8_construction_deterministic (d1 d2 : DigestFn)
    (l1 l2 : List (String × Int × Nat)) (hd : d1 = d2) (hl : l1 = l2) :
    buildPipeline d1 l1 = buildPipeline d2 l2 := by
  subst hd; subst hl; rfl

/-- C8 witness: two constructions from the equal concrete inputs coincide. -/
theorem C8_construction_deterministic_witness :
    buildPipeline dConst [("a", 0, 1)] = buildPipeline dConst [("a", 0, 1)] :=
  C8_construction_deterministic dConst dConst [("a", 0, 1)] [("a", 0, 1)] rfl rfl

/-- C9: a lookup leaves the entire Ketama state unchanged — the
state-passing rendering of `Ketama_get_server` returns the input struct
(numpoints, numservers, memory, server list and every continuum point
included) as its final state, and its result is the pure lookup's
result. -/
theorem C9_lookup_leaves_state_unchanged (d : DigestFn) (st : Ketama) (key : String) :
    (Ketama_get_server_run d st key).2 = st ∧
      (Ketama_get_server_run d st key).1 = Ketama_get_server d st key :=
  ⟨rfl, rfl⟩

/-- C10: the `while (1)` binary-search loop of `Ketama_get_server`
terminates for every value of the `numpoints` field ≥ 0 and every hash
value: within `numpoints + 2` iterations it returns a result, because
every iteration either returns or strictly shrinks `highp - lowp`. -/
theorem C10_lookup_loop_terminates (pts : List Mcs) (np : Nat) (h : Nat) :
    ∃ i, getLoop pts (np : Int) h (np + 2) 0 (np : Int) = some i := by
  obtain ⟨i, hi, -⟩ :=
    getLoop_total pts (np : Int) h (np + 2) 0 (np : Int) le_rfl (by omega) le_rfl (by omega)
  exact ⟨i, hi⟩

/-- C5 (amended): construction aborts (via the `assert` at ketama.c line
168) exactly when the server count is zero; a zero total weight with at
least one server is not checked and does not abort. -/
theorem C5_abort_iff_no_servers (d : DigestFn) (st : Ketama) (hc : st.continuum = none) :
    Ketama_create_continuum d st = none ↔ st.numservers = 0 := by
  unfold Ketama_create_continuum
  rw [hc]
  by_cases h0 : st.numservers = 0
  · simp [h0]
  · simp [h0]

/-- C5 witness: on a freshly populated one-server state construction does
not abort, and on the empty state it does. -/
theorem C5_abort_iff_no_servers_witness :
    (Ketama_create_continuum dConst (applyAdds [("a", 0, 5)]) = none ↔
        (applyAdds [("a", 0, 5)]).numservers = 0) ∧
      (Ketama_create_continuum dConst Ketama_new = none ↔ Ketama_new.numservers = 0) :=
  ⟨C5_abort_iff_no_servers dConst (applyAdds [("a", 0, 5)]) rfl,
    C5_abort_iff_no_servers dConst Ketama_new rfl⟩

/-- C5 counterexample: a ServerSet with one server of weight 0 has total
weight 0, yet construction returns a ring (here an empty one) instead of
failing fatally: the source has no check on the total weight. -/
theorem C5_zero_total_weight_not_aborted :
    (applyAdds [("a", 0, 0)]).memory = 0 ∧
      (applyAdds [("a", 0, 0)]).numservers = 1 ∧
      (buildPipeline dConst [("a", 0, 0)]).isSome = true :=
  ⟨rfl, rfl, rfl⟩

/-- No `Ketama_add_server` call changes `numpoints`. -/
theorem applyAdds_numpoints (l : List (String × Int × Nat)) :
    (applyAdds l).numpoints = 0 := by
  have key : ∀ (l : List (String × Int × Nat)) (st : Ketama),
      (l.foldl (fun st e => Ketama_add_server st e.1 e.2.1 e.2.2) st).numpoints =
        st.numpoints := by
    intro l
    induction l with
    | nil => intro st; rfl
    | cons e tl ih => intro st; exact ih (Ketama_add_server st e.1 e.2.1 e.2.2)
  exact key l Ketama_new

/-- C3: after `Ketama_new`, any sequence of `Ketama_add_server` calls and
one successful `Ketama_create_continuum`, the `numpoints` field is still
0 (the construction counts written points only in the local `cont` and
never stores it); consequently the first iteration of the lookup loop
takes the `midp == numpoints` branch (one unit of fuel returns index 0)
and `Ketama_get_server` returns the RingPoint at continuum index 0 for
every key. -/
theorem C3_numpoints_never_set (d : DigestFn) (l : List (String × Int × Nat)) (st : Ketama)
    (hb : buildPipeline d l = some st) :
    st.numpoints = 0 ∧
      (∀ h : Nat, getLoop (st.continuum.getD []) st.numpoints h 1 0 st.numpoints = some 0) ∧
      (∀ key, Ketama_get_server d st key =
        some ((st.continuum.getD []).getD 0 mcs0)) := by
  have hnum : st.numpoints = 0 := by
    unfold buildPipeline Ketama_create_continuum at hb
    split_ifs at hb with h1 h2
    rw [Option.some_inj] at hb
    subst hb
    exact applyAdds_numpoints l
  refine ⟨hnum, ?_, ?_⟩
  · intro h
    rw [hnum, show (1 : Nat) = 0 + 1 from rfl, getLoop_succ]
    norm_num
  · intro key
    unfold Ketama_get_server
    rw [hnum]
    simp only [Int.toNat_zero]
    rw [show (0 + 2 : Nat) = 1 + 1 from rfl, getLoop_succ]
    simp

/-- C3 witness: on a concretely built state the field is 0 and every
lookup returns the point at index 0. -/
theorem C3_numpoints_never_set_witness :
    ((buildPipeline dConst [("a", 0, 0)]).getD Ketama_new).numpoints = 0 ∧
      (∀ h : Nat,
        getLoop (((buildPipeline dConst [("a", 0, 0)]).getD Ketama_new).continuum.getD [])
          ((buildPipeline dConst [("a", 0, 0)]).getD Ketama_new).numpoints h 1 0
          ((buildPipeline dConst [("a", 0, 0)]).getD Ketama_new).numpoints = some 0) ∧
      (∀ key, Ketama_get_server dConst ((buildPipeline dConst [("a", 0, 0)]).getD Ketama_new)
          key =
        some ((((buildPipeline dConst [("a", 0, 0)]).getD Ketama_new).continuum.getD
          []).getD 0 mcs0)) :=
  C3_numpoints_never_set dConst [("a", 0, 0)]
    ((buildPipeline dConst [("a", 0, 0)]).getD Ketama_new) rfl

/-- C6: lookup totality — on a state whose `numpoints` equals the length
of its non-empty continuum, `Ketama_get_server` returns the owner of some
RingPoint of the ring, for every key and hence for every 32-bit hash
value (including 0 and 0xFFFFFFFF): the search never falls through
without a result and never returns a "no match" value. -/
theorem C6_lookup_total (d : DigestFn) (st : Ketama) (key : String) (pts : List Mcs)
    (hc : st.continuum = some pts) (hn : st.numpoints = (pts.length : Int))
    (hne : pts ≠ []) :
    ∃ p, Ketama_get_server d st key = some p ∧ p ∈ pts := by
  have hlen : 0 < pts.length := List.length_pos.mpr hne
  obtain ⟨i, hi, hv⟩ := getLoop_total pts (pts.length : Int) (ketama_hashi d key)
    (pts.length + 2) 0 (pts.length : Int) le_rfl (by omega) le_rfl (by omega)
  have hilen : i < pts.length := by omega
  refine ⟨pts.getD i mcs0, ?_, ?_⟩
  · unfold Ketama_get_server
    rw [hc, hn]
    simp only [Option.getD_some, Int.toNat_natCast]
    rw [hi]
    rfl
  · rw [List.getD_eq_getElem?_getD, List.getElem?_eq_getElem hilen]
    exact List.getElem_mem hilen

/-- C6 witness: on the concrete two-point state the lookup returns a
member of the ring. -/
theorem C6_lookup_total_witness :
    ∃ p, Ketama_get_server dConst stEx "key" = some p ∧
      p ∈ [(⟨10, "a:0"⟩ : Mcs), ⟨20, "b:0"⟩] :=
  C6_lookup_total dConst stEx "key" [⟨10, "a:0"⟩, ⟨20, "b:0"⟩] rfl rfl (by decide)

/-- C2: on a non-empty state whose continuum is sorted ascending by
position and whose `numpoints` equals its length, `Ketama_get_server`
returns the RingPoint whose position is the smallest position ≥
`hash(key)` (the leftmost such point), and wraps to the ring's first
point when the hash exceeds every position. -/
theorem C2_lookup_successor (d : DigestFn) (st : Ketama) (key : String) (pts : List Mcs)
    (hc : st.continuum = some pts) (hn : st.numpoints = (pts.length : Int))
    (hs : sortedByPoint pts) (hne : pts ≠ []) :
    ∃ i, i < pts.length ∧ Ketama_get_server d st key = some (pts.getD i mcs0) ∧
      ((∃ j, j < pts.length ∧ ketama_hashi d key ≤ ptv pts j) →
        ketama_hashi d key ≤ ptv pts i ∧
          ∀ j, j < pts.length → ketama_hashi d key ≤ ptv pts j → ptv pts i ≤ ptv pts j) ∧
      ((∀ j, j < pts.length → ptv pts j < ketama_hashi d key) → i = 0) := by
  have hlen : 0 < pts.length := List.length_pos.mpr hne
  obtain ⟨i, hi, hg⟩ := getLoop_sound pts (ketama_hashi d key) hs (pts.length + 2)
    0 (pts.length : Int) le_rfl (by omega) le_rfl (by omega)
    (fun j hj _ => absurd hj (by omega))
    (fun j hj hjlen => absurd hjlen (by omega))
  unfold GoodIdx at hg
  have hilen : i < pts.length := by
    rcases hg with ⟨h1, -, -⟩ | ⟨rfl, -⟩
    · exact h1
    · exact hlen
  refine ⟨i, hilen, ?_, ?_, ?_⟩
  · unfold Ketama_get_server
    rw [hc, hn]
    simp only [Option.getD_some, Int.toNat_natCast]
    rw [hi]
    rfl
  · rintro ⟨j0, hj0, hj0h⟩
    rcases hg with ⟨-, hl2, hl3⟩ | ⟨rfl, hr⟩
    · refine ⟨hl2, ?_⟩
      intro j hjlen hjh
      by_cases hij : j < i
      · exact absurd hjh (by have := hl3 j hij; omega)
      · exact ptv_mono pts hs i j (by omega) hjlen
    · exact absurd hj0h (by have := hr j0 hj0; omega)
  · intro hall
    rcases hg with ⟨hl1, hl2, -⟩ | ⟨rfl, -⟩
    · exact absurd hl2 (by have := hall i hl1; omega)
    · rfl

/-- C2 witness: on the concrete sorted two-point state the lookup returns
the successor point of the key hash. -/
theorem C2_lookup_successor_witness :
    ∃ i, i < ([(⟨10, "a:0"⟩ : Mcs), ⟨20, "b:0"⟩]).length ∧
      Ketama_get_server dConst stEx "key" =
        some (([(⟨10, "a:0"⟩ : Mcs), ⟨20, "b:0"⟩]).getD i mcs0) ∧
      ((∃ j, j < ([(⟨10, "a:0"⟩ : Mcs), ⟨20, "b:0"⟩]).length ∧
          ketama_hashi dConst "key" ≤ ptv [⟨10, "a:0"⟩, ⟨20, "b:0"⟩] j) →
        ketama_hashi dConst "key" ≤ ptv [⟨10, "a:0"⟩, ⟨20, "b:0"⟩] i ∧
          ∀ j, j < ([(⟨10, "a:0"⟩ : Mcs), ⟨20, "b:0"⟩]).length →
            ketama_hashi dConst "key" ≤ ptv [⟨10, "a:0"⟩, ⟨20, "b:0"⟩] j →
              ptv [⟨10, "a:0"⟩, ⟨20, "b:0"⟩] i ≤ ptv [⟨10, "a:0"⟩, ⟨20, "b:0"⟩] j) ∧
      ((∀ j, j < ([(⟨10, "a:0"⟩ : Mcs), ⟨20, "b:0"⟩]).length →
          ptv [⟨10, "a:0"⟩, ⟨20, "b:0"⟩] j < ketama_hashi dConst "key") → i = 0) :=
  C2_lookup_successor dConst stEx "key" [⟨10, "a:0"⟩, ⟨20, "b:0"⟩] rfl rfl
    (by decide) (by decide)

set_option maxRecDepth 1000000 in
set_option maxHeartbeats 2000000 in
/-- C1: the constructed continuum is not sorted: the `qsort` at ketama.c
line 217 is commented out, so the ring stays in generation order.  At the
failing input (the constant digest whose bytes are `1, 0, 0, …, 0`, one
server of weight 1) the constructed ring has position 1 at index 0
followed by position 0 at index 1, violating the claimed sortedness
invariant. -/
theorem C1_constructed_ring_unsorted :
    ptv (((buildPipeline dConst [("a", 0, 1)]).getD Ketama_new).continuum.getD []) 0 = 1 ∧
      ptv (((buildPipeline dConst [("a", 0, 1)]).getD Ketama_new).continuum.getD []) 1 = 0 ∧
      ¬sortedByPoint
        (((buildPipeline dConst [("a", 0, 1)]).getD Ketama_new).continuum.getD []) := by
  decide

/-- The length of a flatMap over an initial segment whose blocks all have
the same length. -/
theorem length_flatMap_of_const {α : Type} (f : Nat → List α) (c : Nat)
    (hf : ∀ k, (f k).length = c) (m : Nat) :
    ((List.range m).flatMap f).length = c * m := by
  induction m with
  | zero => simp
  | succ m ih =>
    rw [List.range_succ, List.flatMap_append]
    simp [ih, hf, Nat.mul_succ]

/-- C4 (amended): construction allocates to each server exactly
`ks weight totalWeight serverCount` digest invocations — the 32-bit
floating-point computation of ketama.c line 181, which can differ by one
from the exact `floor((weight / totalWeight) * 40 * serverCount)` — one
per string `"<identifier>-<k>"` for `k` from 0 to that count minus 1, and
each invocation yields exactly 4 RingPoints owned by the server; so the
server's block in the continuum holds exactly
`4 * ks weight totalWeight serverCount` RingPoints, all owned by it. -/
theorem C4_points_per_server (d : DigestFn) (W n : Nat) (sinfo : String × Nat) :
    (serverPoints d W n sinfo).length = 4 * ks sinfo.2 W n ∧
      (serverPoints d W n sinfo).all (fun p => p.ip == sinfo.1) = true := by
  constructor
  · unfold serverPoints
    rw [length_flatMap_of_const _ 4 (fun k => by simp) (ks sinfo.2 W n)]
  · simp only [List.all_eq_true, serverPoints]
    intro p hp
    simp only [List.mem_flatMap, List.mem_map, List.mem_range] at hp
    obtain ⟨k, -, hh, -, rfl⟩ := hp
    simp

set_option maxRecDepth 1000000 in
set_option maxHeartbeats 4000000 in
/-- C4 counterexample: with two servers of weights 139198 and 22191
(total weight 161389, server count 2) the float computation of ketama.c
line 181 allocates 69 hash rounds to the first server, so it contributes
4 * 69 = 276 RingPoints, while the claimed exact formula gives
floor((139198 / 161389) * 40 * 2) = 68, i.e. 272 points. -/
theorem C4_float_differs_from_exact_floor :
    (applyAdds [("a", 0, 139198), ("b", 0, 22191)]).memory = 161389 ∧
      (applyAdds [("a", 0, 139198), ("b", 0, 22191)]).numservers = 2 ∧
      ((((buildPipeline dConst [("a", 0, 139198), ("b", 0, 22191)]).getD
          Ketama_new).continuum.getD []).filter (fun p => p.ip == "a:0")).length = 276 ∧
      4 * (139198 * 40 * 2 / 161389) = 272 := by
  decide

end Libredis
